import Mathlib

/-!
Verification development for the GATA-public dataset-collection scripts
(`cmd_gen.0.2/make_cmd_gen_dataset.py` and `playthroughs/collect_playthroughs.py`).

The two scripts drive an external TextWorld environment along a walkthrough,
maintain a monotone "seen facts" accumulator, and emit training records whose
`target_commands` reconcile the previous and current serialized seen views.

The helper functions imported from `generic.py` (`process_facts`,
`serialize_facts`, `gen_graph_commands`, `preproc`) are not part of the two
driver files; where they are needed they are modelled from the specification
(each such definition carries a doc comment saying so).  The environment
(TextWorld) and the numpy random generator are external collaborators and are
modelled as explicit parameters / deterministic streams.
-/

namespace GATA

/-- Fact (Proposition): a predicate name plus an ordered list of entity
argument names.  Equality is structural, and facts are collected into
`Finset`s, modelling Python's hash-sets of `Proposition` values. -/
structure Fact where
  pred : String
  args : List String
deriving DecidableEq, Repr

/-- Modelled from the spec: Python's `str.lower()` — character-wise lowercasing
(out-of-scope text normalization is character-wise for the command and fact
strings involved here). -/
def lower (s : String) : String := String.mk (s.toList.map Char.toLower)

/-- Computable lexicographic comparison of character lists, deciding the
`List Char` linear order (and hence the `String` order) by structural
recursion. -/
def strLeb : List Char → List Char → Bool
  | [], _ => true
  | _ :: _, [] => false
  | a :: as, b :: bs =>
    if a < b then true else if b < a then false else strLeb as bs

theorem strLeb_iff : ∀ (x y : List Char), strLeb x y = true ↔ x ≤ y
  | [], y => by simp [strLeb, List.nil_le]
  | a :: as, [] => by
    simp only [strLeb, Bool.false_eq_true, false_iff]
    intro h
    rcases lt_or_eq_of_le h with h' | h'
    · exact List.Lex.not_nil_right _ _ h'
    · simp at h'
  | a :: as, b :: bs => by
    rw [strLeb]
    by_cases hab : a < b
    · rw [if_pos hab]
      simp only [true_iff]
      exact le_of_lt (List.Lex.rel hab)
    · rw [if_neg hab]
      by_cases hba : b < a
      · rw [if_pos hba]
        simp only [Bool.false_eq_true, false_iff]
        intro h
        rcases lt_or_eq_of_le h with h' | h'
        · rcases h' with _ | h'' | h''
          · exact absurd hba (lt_asymm (by assumption))
          · exact hab (by assumption)
        · rw [List.cons.injEq] at h'
          exact absurd (h'.1 ▸ hba) (lt_irrefl a)
      · rw [if_neg hba]
        have hval : a = b := le_antisymm (le_of_not_lt hba) (le_of_not_lt hab)
        subst hval
        rw [strLeb_iff as bs]
        constructor
        · intro h
          exact List.cons_le_cons a h
        · intro h
          rcases lt_or_eq_of_le h with h' | h'
          · exact le_of_lt (List.Lex.cons_iff.mp h')
          · rw [List.cons.injEq] at h'
            exact le_of_eq h'.2

/-- Kernel-computable decidability of the string order, used so that concrete
runs of the embedded scripts evaluate inside proofs. -/
instance instDecLEString : DecidableRel (α := String) (· ≤ ·) := fun s t =>
  decidable_of_iff (strLeb s.toList t.toList = true)
    ((strLeb_iff s.toList t.toList).trans String.le_iff_toList_le.symm)

/-- Python's `sorted` on a collection of strings: the unique `≤`-sorted list
with the same multiplicity of elements (insertion sort of any representative). -/
def msort (m : Multiset String) : List String :=
  Quot.liftOn m (fun l => l.insertionSort (· ≤ ·))
    (fun l₁ l₂ h => List.eq_of_perm_of_sorted
      (((List.perm_insertionSort _ l₁).trans h).trans (List.perm_insertionSort _ l₂).symm)
      (List.sorted_insertionSort _ _) (List.sorted_insertionSort _ _))

/-- Modelled from the spec: the Canonical Serializer (`generic.py`, not under
`src/`).  Spec §4.4: "predicate name followed by its arguments in declaration
order, lower-cased, with no surrounding whitespace variance"; §8 shows the
shape `at(player, kitchen)`. -/
def serialize (f : Fact) : String :=
  lower (f.pred ++ "(" ++ String.intercalate ", " f.args ++ ")")

/-- Modelled from the spec: `sorted(serialize_facts(S))` (`generic.py` is not
under `src/`): each fact of the set is serialized and the results are sorted
lexicographically (spec §4.4 `serialize_set`). -/
def serializedView (s : Finset Fact) : List String :=
  msort (s.val.map serialize)

/-- Modelled from the spec: `gen_graph_commands(facts, cmd)` (`generic.py`, not
under `src/`): one command string `"<op> <canonical-fact>"` per fact (spec §6). -/
def genGraphCommands (s : Finset Fact) (cmd : String) : Multiset String :=
  s.val.map (fun f => cmd ++ " " ++ serialize f)

/-- The `target_commands` expression of `make_cmd_gen_dataset.py` lines 110-111
(and 146-147): `sorted(gen_graph_commands(cur - last, "add") +
gen_graph_commands(last - cur, "delete"))`. -/
def targetCommands (last cur : Finset Fact) : List String :=
  msort (genGraphCommands (cur \ last) "add" + genGraphCommands (last \ cur) "delete")

/-- The slice of the per-step information returned by the environment that the
scripts consume: the ground-truth fact set and the admissible commands.
TextWorld itself is an external collaborator (spec §1). -/
structure Infos where
  facts : Finset Fact
  admissible : List String

/-- One training record, `make_cmd_gen_dataset.py` lines 105-114. -/
structure Record where
  game : String
  step : Nat × Nat
  observation : String
  previous_action : String
  target_commands : List String
  previous_graph_seen : List String
  graph_seen : List String
deriving DecidableEq, Repr

/-- Modelled from the spec: `process_facts` (`generic.py`, not under `src/`).
Spec §4.3: `seenView(previousSeen, closureFacts, localFacts) = previousSeen ∪
(closureFacts ∩ perceivable)`; the closure and the perceivability filter are
abstracted into the parameter `np` (newly perceived facts of this step). -/
def process_facts (np : Infos → String → Finset Fact) (last : Finset Fact)
    (infos : Infos) (cmd : String) : Finset Fact :=
  last ∪ np infos cmd

/-- Record assembly, `make_cmd_gen_dataset.py` lines 105-114 (and 141-150).
`pp` models `preproc` from `generic.py` (text normalization, out of scope per
spec §1); `last`/`cur` are the previous and current seen accumulators. -/
def mkRecord (pp : String → String) (game : String) (i j : Nat) (obs cmd : String)
    (last cur : Finset Fact) : Record :=
  ⟨game, (i, j), pp obs, lower cmd, targetCommands last cur,
    serializedView last, serializedView cur⟩

/-- Deterministic model of one TextWorld game environment: reset data plus a
deterministic step function over an abstract machine state `S`. -/
structure EnvModel (S : Type) where
  resetObs : String
  resetInfos : Infos
  resetState : S
  step : S → String → String × Bool × Infos × S
  walkthrough : List String

/-- The ignored-command list, `make_cmd_gen_dataset.py` line 77. -/
def commandsToIgnore : List String := ["look", "examine", "inventory"]

/-- Python's `c.split()[0]`: first whitespace-separated token of a command. -/
def firstWord (c : String) : String :=
  String.mk ((c.toList.dropWhile Char.isWhitespace).takeWhile (fun ch => !ch.isWhitespace))

/-- The exploratory-command filter, `make_cmd_gen_dataset.py` lines 125-127. -/
def eligibleCommands (w : List String) (i : Nat) (admissible : List String) : List String :=
  admissible.filter (fun c =>
    (c == "examine cookbook" || !(commandsToIgnore.contains (firstWord c)))
      && !(i + 1 == w.length) && !(w.get? (i + 1) == some c))

/-- Modelled from the spec: `np.random.RandomState(seed)` and `rng.choice`
(numpy, external).  The generator is a deterministic stream: its state is a
natural number initialised to the seed; `choice` picks the state-indexed
element and advances the state. -/
def rngChoice (state : Nat) (l : List String) : String × Nat :=
  (l.getD (state % l.length) "", state + 1)

/-- The exploratory branch loop, `make_cmd_gen_dataset.py` lines 124-150:
starting at index `j` with `fuel` remaining iterations (`fuel = branching_depth`
at the fork), repeatedly pick a random eligible command, step the forked
environment, and append a record unless the episode ended. -/
def branchLoop {S : Type} (step : S → String → String × Bool × Infos × S)
    (np : Infos → String → Finset Fact) (pp : String → String)
    (game : String) (w : List String) (i : Nat) :
    Nat → Nat → S → Infos → Finset Fact → Nat → List Record × Nat
  | _, 0, _, _, _, rng => ([], rng)
  | j, fuel + 1, s, infos, seen, rng =>
    let cmds := eligibleCommands w i infos.admissible
    if cmds = [] then ([], rng)
    else
      let pick := rngChoice rng cmds
      let st := step s pick.1
      if st.2.1 then ([], pick.2)
      else
        let seen' := process_facts np seen st.2.2.1 pick.1
        let r := mkRecord pp game i j st.1 pick.1 seen seen'
        let rest := branchLoop step np pp game w i (j + 1) fuel st.2.2.2 st.2.2.1 seen' pick.2
        (r :: rest.1, rest.2)

/-- The walkthrough loop, `make_cmd_gen_dataset.py` lines 96-150: iterate over
the processed walkthrough with index `i`; the environment is stepped only for
`i > 0` (the step-`0` pseudo-action `restart` reuses the reset data); a record
is appended for every step, the loop stops right after a record whose step
reported `done`, and otherwise the exploration fork runs before the next
walkthrough command. -/
def walkLoop {S : Type} (step : S → String → String × Bool × Infos × S)
    (np : Infos → String → Finset Fact) (pp : String → String)
    (game : String) (w : List String) (depth : Nat) :
    List String → Nat → S → Infos → String → Finset Fact → Nat → List Record
  | [], _, _, _, _, _, _ => []
  | cmd :: rest, i, s, infos, obs, seen, rng =>
    let st := if i = 0 then (obs, false, infos, s) else step s cmd
    let seen' := process_facts np seen st.2.2.1 cmd
    let r := mkRecord pp game i 0 st.1 cmd seen seen'
    if st.2.1 then [r]
    else
      let br := branchLoop step np pp game w i 1 depth st.2.2.2 st.2.2.1 seen' rng
      r :: (br.1 ++ walkLoop step np pp game w depth rest (i + 1) st.2.2.2 st.2.2.1 st.1 seen' br.2)

/-- Walkthrough normalization, `make_cmd_gen_dataset.py` lines 86-92 (and
`collect_playthroughs.py` lines 30-35): prepend `"inventory"` when it is not
already the first command, then prepend `"restart"` unconditionally. -/
def normalizeWalkthrough (w : List String) : List String :=
  "restart" :: (if w.headD "" != "inventory" then "inventory" :: w else w)

/-- `collect_data_from_game`, `make_cmd_gen_dataset.py` lines 72-152, over an
environment model.  An empty walkthrough makes the Python `walkthrough[0]`
lookup raise, modelled by `none`.  The per-game RNG state starts at `seed`
(line 74). -/
def collect_data_from_game {S : Type} (env : EnvModel S)
    (np : Infos → String → Finset Fact) (pp : String → String)
    (gamefile : String) (seed depth : Nat) : Option (String × List Record) :=
  match env.walkthrough with
  | [] => none
  | _ :: _ =>
    let w := normalizeWalkthrough env.walkthrough
    some (gamefile,
      walkLoop env.step np pp gamefile w depth w 0 env.resetState env.resetInfos
        env.resetObs ∅ seed)

/-- The sequential batch loop of `collect_data`, `make_cmd_gen_dataset.py`
lines 183-187: game `i` is processed with seed `args.seed + i` and its records
are written; a raised exception (modelled by `Except.error`) propagates, so the
loop stops at the first failing game.  The result is the list of record lists
written before any failure, together with the propagated error if one occurred. -/
def collect_data_seq (run : String → Nat → Except String (List Record)) :
    List String → Nat → List (List Record) × Option String
  | [], _ => ([], none)
  | g :: gs, seed =>
    match run g seed with
    | .error e => ([], some e)
    | .ok d =>
      let rest := collect_data_seq run gs (seed + 1)
      (d :: rest.1, rest.2)

/-- The sibling-branch seen accumulators of `collect_playthroughs.py` lines
62-72: from one fork point (state `s`, accumulator `seen`), every eligible
command is tried on a fresh copy of the environment, and each branch's
accumulator is `process_facts` of the fork-point accumulator. -/
def ptBranchSeens {S : Type} (step : S → String → String × Bool × Infos × S)
    (np : Infos → String → Finset Fact) (s : S) (seen : Finset Fact)
    (cmds : List String) : List (Finset Fact) :=
  cmds.map (fun c => process_facts np seen (step s c).2.2.1 c)

/-- Application semantics of one GraphCommand string, following the round-trip
law's wording (spec §3/§8): a command `"add f"` inserts the serialized fact
string `f` into the graph, a command `"delete f"` removes it, anything else is
ignored. -/
def applyCommand (g : Finset String) (c : String) : Finset String :=
  if c.toList.take 4 = "add ".toList then insert (String.mk (c.toList.drop 4)) g
  else if c.toList.take 7 = "delete ".toList then g.erase (String.mk (c.toList.drop 7))
  else g

/-- Application of a whole GraphCommand list to a serialized previous view,
returning the resulting serialized view (sorted, duplicates collapsed). -/
def applyCommands (prev : List String) (cmds : List String) : List String :=
  msort (cmds.foldl applyCommand prev.toFinset).val

/-- The per-game runner that the sequential `collect_data` loop invokes
(`make_cmd_gen_dataset.py` line 186): the record list of
`collect_data_from_game`; the `IndexError` that Python raises on an empty
walkthrough is modelled as an exception. -/
def runGame {S : Type} (envOf : String → EnvModel S)
    (np : Infos → String → Finset Fact) (pp : String → String) (depth : Nat)
    (g : String) (seed : Nat) : Except String (List Record) :=
  match collect_data_from_game (envOf g) np pp g seed depth with
  | some r => .ok r.2
  | none => .error "IndexError"

/-- The records `collect_data_from_game` produces for one game (empty when the
walkthrough is empty and the Python code would raise). -/
def gameRecords {S : Type} (envOf : String → EnvModel S)
    (np : Infos → String → Finset Fact) (pp : String → String) (depth : Nat)
    (g : String) (seed : Nat) : List Record :=
  ((collect_data_from_game (envOf g) np pp g seed depth).map Prod.snd).getD []

/-- A two-game batch runner whose first game raises and whose second game
succeeds, exhibiting how one game's failure aborts the batch. -/
def failingRun : String → Nat → Except String (List Record) :=
  fun g _ => if g = "a" then .error "boom" else .ok []

/-- Concrete fact fixtures used by the closed-instance theorems below. -/
def factAtKitchen : Fact := ⟨"at", ["player", "kitchen"]⟩

def factAtHallway : Fact := ⟨"at", ["player", "hallway"]⟩

def setKitchen : Finset Fact := {factAtKitchen}

def setHallway : Finset Fact := {factAtHallway}

/-- A tiny concrete environment for the closed-instance theorems: the state is
a step counter, every step reports not-done and the same information. -/
def toyInfos : Infos := ⟨∅, ["go north", "take apple"]⟩

def toyEnv : EnvModel Nat :=
  ⟨"start", toyInfos, 0, fun s c => ("after " ++ c, false, toyInfos, s + 1), ["go north"]⟩

/-- A variant of `toyEnv` whose every step reports episode completion. -/
def toyDoneEnv : EnvModel Nat :=
  ⟨"start", toyInfos, 0, fun s c => ("after " ++ c, true, toyInfos, s + 1), ["go north"]⟩

/-- A newly-perceived-facts function for the fixtures: the `restart`
pseudo-action reveals `at(player, kitchen)`, other actions reveal nothing. -/
def toyNp : Infos → String → Finset Fact :=
  fun _ c => if c = "restart" then {factAtKitchen} else ∅

/-! ### String-order helper lemmas -/

theorem string_append_lt_append_left (p : String) {x y : String} (h : x < y) :
    p ++ x < p ++ y := by
  rw [String.lt_iff_toList_lt] at h ⊢
  have hx : (p ++ x).toList = p.toList ++ x.toList := rfl
  have hy : (p ++ y).toList = p.toList ++ y.toList := rfl
  rw [hx, hy]
  exact List.Lex.append_left _ h _

theorem string_append_le_append_left (p : String) {x y : String} (h : x ≤ y) :
    p ++ x ≤ p ++ y := by
  rcases lt_or_eq_of_le h with h' | h'
  · exact le_of_lt (string_append_lt_append_left p h')
  · rw [h']

theorem add_cmd_lt_delete_cmd (x y : String) : "add " ++ x < "delete " ++ y := by
  rw [String.lt_iff_toList_lt]
  have hx : ("add " ++ x).toList = 'a' :: 'd' :: 'd' :: ' ' :: x.toList := rfl
  have hy : ("delete " ++ y).toList = 'd' :: 'e' :: 'l' :: 'e' :: 't' :: 'e' :: ' ' :: y.toList := rfl
  rw [hx, hy]
  exact List.Lex.rel (by decide)

/-! ### Multiset-sort helper lemmas -/

theorem msort_sorted (m : Multiset String) : (msort m).Sorted (· ≤ ·) :=
  Quot.inductionOn m (fun _ => List.sorted_insertionSort _ _)

theorem msort_eq (m : Multiset String) : (↑(msort m) : Multiset String) = m :=
  Quot.inductionOn m (fun _ => Quot.sound (List.perm_insertionSort _ _))

theorem mem_msort {m : Multiset String} {a : String} : a ∈ msort m ↔ a ∈ m := by
  rw [← Multiset.mem_coe, msort_eq]

theorem msort_zero : msort 0 = [] := rfl

theorem sort_add_of_le (a b : Multiset String)
    (h : ∀ x ∈ a, ∀ y ∈ b, x ≤ y) :
    msort (a + b) = msort a ++ msort b := by
  have hperm : ((msort (a + b) : List String) : Multiset String)
      = ↑(msort a ++ msort b) := by
    rw [msort_eq, ← Multiset.coe_add, msort_eq, msort_eq]
  have hsorted : (msort a ++ msort b).Sorted (· ≤ ·) :=
    List.pairwise_append.mpr ⟨msort_sorted _, msort_sorted _,
      fun x hx y hy =>
        h x (mem_msort.mp hx) y (mem_msort.mp hy)⟩
  exact List.eq_of_perm_of_sorted (Multiset.coe_eq_coe.mp hperm)
    (msort_sorted _) hsorted

theorem sort_map_prepend (p : String) (m : Multiset String) :
    msort (m.map (fun x => p ++ x))
      = (msort m).map (fun x => p ++ x) := by
  have hperm : ((msort (m.map (fun x => p ++ x)) : List String) : Multiset String)
      = ↑((msort m).map (fun x => p ++ x)) := by
    rw [msort_eq, ← Multiset.map_coe, msort_eq]
  have hsorted : ((msort m).map (fun x => p ++ x)).Sorted (· ≤ ·) :=
    List.pairwise_map.mpr
      ((msort_sorted _).imp (fun h => string_append_le_append_left p h))
  exact List.eq_of_perm_of_sorted (Multiset.coe_eq_coe.mp hperm)
    (msort_sorted _) hsorted

/-! ### C2: diff is plain set difference, disjoint, empty on equal inputs -/

/-- C2.  The Graph Differ of `make_cmd_gen_dataset.py` lines 110-111 uses the
plain set differences `cur \ last` (added) and `last \ cur` (removed); these
are always disjoint, and when the previous and current seen sets are equal both
differences are empty and the synthesized command list is empty. -/
theorem diff_disjoint_and_empty (last cur : Finset Fact) :
    Disjoint (cur \ last) (last \ cur)
      ∧ (last = cur →
          cur \ last = ∅ ∧ last \ cur = ∅ ∧ targetCommands last cur = []) := by
  constructor
  · exact disjoint_sdiff_sdiff
  · rintro rfl
    refine ⟨Finset.sdiff_self _, Finset.sdiff_self _, ?_⟩
    simp [targetCommands, genGraphCommands, Finset.sdiff_self, msort_zero]

/-- Witness for `diff_disjoint_and_empty` at a concrete pair of equal fact
sets. -/
theorem diff_disjoint_and_empty_witness :
    setKitchen = setKitchen ∧ targetCommands setKitchen setKitchen = [] :=
  ⟨rfl, ((diff_disjoint_and_empty setKitchen setKitchen).2 rfl).2.2⟩

/-- Key structural identity for `target_commands`: the sorted interleaving of
the add and delete commands is the sorted add commands followed by the sorted
delete commands, each obtained by prepending the operation to the sorted
canonical fact strings. -/
theorem targetCommands_eq (last cur : Finset Fact) :
    targetCommands last cur
      = (serializedView (cur \ last)).map (fun x => "add " ++ x)
        ++ (serializedView (last \ cur)).map (fun x => "delete " ++ x) := by
  have hgen : ∀ (s : Finset Fact) (c : String),
      genGraphCommands s c = (s.val.map serialize).map (fun x => (c ++ " ") ++ x) := by
    intro s c
    rw [Multiset.map_map]
    rfl
  rw [targetCommands, hgen, hgen]
  rw [sort_add_of_le]
  · have h1 : ("add" ++ " " : String) = "add " := rfl
    have h2 : ("delete" ++ " " : String) = "delete " := rfl
    rw [h1, h2, sort_map_prepend, sort_map_prepend]
    rfl
  · intro x hx y hy
    rw [Multiset.mem_map] at hx hy
    obtain ⟨fx, _, hfx⟩ := hx
    obtain ⟨fy, _, hfy⟩ := hy
    rw [← hfx, ← hfy]
    exact le_of_lt (add_cmd_lt_delete_cmd _ _)

/-! ### C5: command list ordering -/

/-- C5.  `target_commands` (lines 110-111) is exactly the sorted `add` commands
followed by the sorted `delete` commands: every element has the form
`"<add|delete> <canonical-fact>"`, every `add` precedes every `delete`, within
one operation the commands appear in lexicographic order of their canonical
fact strings, and the whole list is sorted lexicographically (for the strings
`"add <f>"`/`"delete <f>"` this coincides with the order by the pair
(operation, canonical fact string)). -/
theorem target_commands_sorted_form (last cur : Finset Fact) :
    targetCommands last cur
      = (serializedView (cur \ last)).map (fun x => "add " ++ x)
        ++ (serializedView (last \ cur)).map (fun x => "delete " ++ x)
      ∧ (targetCommands last cur).Sorted (· ≤ ·) :=
  ⟨targetCommands_eq last cur, msort_sorted _⟩

/-! ### C1: round-trip law -/

theorem applyCommand_add (g : Finset String) (x : String) :
    applyCommand g ("add " ++ x) = insert x g := by
  have hc : ("add " ++ x).toList.take 4 = "add ".toList := rfl
  have hd : String.mk (("add " ++ x).toList.drop 4) = x := rfl
  rw [applyCommand, if_pos hc, hd]

theorem applyCommand_delete (g : Finset String) (x : String) :
    applyCommand g ("delete " ++ x) = g.erase x := by
  have hc1 : ("delete " ++ x).toList.take 4 = ['d', 'e', 'l', 'e'] := rfl
  have hc2 : ("delete " ++ x).toList.take 7 = "delete ".toList := rfl
  have hd : String.mk (("delete " ++ x).toList.drop 7) = x := rfl
  rw [applyCommand, if_neg (by rw [hc1]; decide), if_pos hc2, hd]

theorem foldl_apply_add_map (xs : List String) (g : Finset String) :
    (xs.map (fun x => "add " ++ x)).foldl applyCommand g = g ∪ xs.toFinset := by
  induction xs generalizing g with
  | nil => simp
  | cons a t ih =>
    rw [List.map_cons, List.foldl_cons, applyCommand_add, ih]
    rw [List.toFinset_cons, Finset.insert_union, Finset.union_insert]

theorem foldl_apply_delete_map (xs : List String) (g : Finset String) :
    (xs.map (fun x => "delete " ++ x)).foldl applyCommand g = g \ xs.toFinset := by
  induction xs generalizing g with
  | nil => simp
  | cons a t ih =>
    rw [List.map_cons, List.foldl_cons, applyCommand_delete, ih]
    ext y
    simp only [Finset.mem_sdiff, Finset.mem_erase, List.toFinset_cons, Finset.mem_insert]
    tauto

theorem toFinset_serializedView (s : Finset Fact) :
    (serializedView s).toFinset = s.image serialize := by
  ext x
  simp only [serializedView, List.mem_toFinset, mem_msort, Multiset.mem_map,
    Finset.mem_image]
  constructor
  · rintro ⟨f, hf, rfl⟩
    exact ⟨f, hf, rfl⟩
  · rintro ⟨f, hf, rfl⟩
    exact ⟨f, hf, rfl⟩

/-- C1.  Round-trip law: for every record assembled from a previous seen set
`last` and a current seen set `cur` (every record of every playthrough step is
assembled exactly that way, `make_cmd_gen_dataset.py` lines 105-114 and
141-150), applying the record's `target_commands` — each `add f` inserting the
serialized fact `f`, each `delete f` removing it — to the record's
`previous_graph_seen` reproduces the record's `graph_seen` exactly.  The
hypothesis states that the canonical serializer is injective on the facts in
play, which is what makes the serialized strings faithful names for the facts. -/
theorem record_roundtrip_law (pp : String → String) (game : String) (i j : Nat)
    (obs cmd : String) (last cur : Finset Fact)
    (hinj : ∀ f ∈ last ∪ cur, ∀ g ∈ last ∪ cur, serialize f = serialize g → f = g) :
    applyCommands (mkRecord pp game i j obs cmd last cur).previous_graph_seen
        (mkRecord pp game i j obs cmd last cur).target_commands
      = (mkRecord pp game i j obs cmd last cur).graph_seen := by
  show applyCommands (serializedView last) (targetCommands last cur) = serializedView cur
  rw [applyCommands, targetCommands_eq, List.foldl_append]
  rw [toFinset_serializedView, foldl_apply_add_map, foldl_apply_delete_map]
  rw [toFinset_serializedView, toFinset_serializedView]
  have hset : (last.image serialize ∪ (cur \ last).image serialize)
      \ (last \ cur).image serialize = cur.image serialize := by
    ext x
    simp only [Finset.mem_sdiff, Finset.mem_union, Finset.mem_image]
    constructor
    · rintro ⟨hin, hout⟩
      rcases hin with ⟨f, hf, rfl⟩ | ⟨f, hf, rfl⟩
      · by_cases hfc : f ∈ cur
        · exact ⟨f, hfc, rfl⟩
        · exact absurd ⟨f, ⟨hf, hfc⟩, rfl⟩ hout
      · exact ⟨f, hf.1, rfl⟩
    · rintro ⟨f, hf, rfl⟩
      constructor
      · by_cases hfl : f ∈ last
        · exact Or.inl ⟨f, hfl, rfl⟩
        · exact Or.inr ⟨f, ⟨hf, hfl⟩, rfl⟩
      · rintro ⟨g, hg, hgf⟩
        rcases hg with ⟨hgl, hgc⟩
        have : g = f := hinj g (Finset.mem_union_left _ hgl) f
          (Finset.mem_union_right _ hf) hgf
        exact hgc (this ▸ hf)
  rw [hset]
  have hnodup : (cur.val.map serialize).Nodup :=
    Multiset.Nodup.map_on
      (fun a ha b hb => hinj a (Finset.mem_union_right _ ha) b (Finset.mem_union_right _ hb))
      cur.nodup
  have himg : (cur.image serialize).val = cur.val.map serialize := by
    rw [Finset.image_val, Multiset.dedup_eq_self.mpr hnodup]
  show msort ((cur.image serialize).val) = serializedView cur
  rw [himg]
  rfl

/-- Witness for `record_roundtrip_law` at a concrete record: previous view
`{at(player, kitchen)}`, current view `{at(player, hallway)}`. -/
theorem record_roundtrip_law_witness :
    applyCommands
        (mkRecord id "g" 1 0 "obs" "go west" setKitchen setHallway).previous_graph_seen
        (mkRecord id "g" 1 0 "obs" "go west" setKitchen setHallway).target_commands
      = (mkRecord id "g" 1 0 "obs" "go west" setKitchen setHallway).graph_seen :=
  record_roundtrip_law id "g" 1 0 "obs" "go west" setKitchen setHallway (by decide)

/-! ### Loop structure helper lemmas -/

section LoopLemmas

variable {S : Type} (step : S → String → String × Bool × Infos × S)
  (np : Infos → String → Finset Fact) (pp : String → String)
  (game : String) (w : List String)

theorem branchLoop_snd_ge (i : Nat) :
    ∀ (fuel j : Nat) (s : S) (infos : Infos) (seen : Finset Fact) (rng : Nat),
      ∀ r ∈ (branchLoop step np pp game w i j fuel s infos seen rng).1,
        j ≤ r.step.2 := by
  intro fuel
  induction fuel with
  | zero =>
    intro j s infos seen rng r hr
    simp [branchLoop] at hr
  | succ n ih =>
    intro j s infos seen rng r hr
    simp only [branchLoop] at hr
    split at hr
    · simp at hr
    · split at hr
      · simp at hr
      · rcases List.mem_cons.mp hr with hr | hr
        · subst hr
          exact le_refl _
        · exact Nat.le_of_succ_le (ih (j + 1) _ _ _ _ r hr)

theorem walkLoop_filter_zero (depth : Nat) :
    ∀ (rest : List String) (i : Nat) (s : S) (infos : Infos) (obs : String)
      (seen : Finset Fact) (rng rng' : Nat),
      (walkLoop step np pp game w depth rest i s infos obs seen rng).filter
          (fun r => r.step.2 == 0)
        = walkLoop step np pp game w 0 rest i s infos obs seen rng' := by
  intro rest
  induction rest with
  | nil =>
    intro i s infos obs seen rng rng'
    simp [walkLoop]
  | cons cmd rest ih =>
    intro i s infos obs seen rng rng'
    simp only [walkLoop]
    generalize (if i = 0 then (obs, false, infos, s) else step s cmd) = st
    obtain ⟨obs', done, infos', s'⟩ := st
    cases done with
    | true => simp [mkRecord]
    | false =>
      simp only [Bool.false_eq_true, if_false]
      rw [List.filter_cons, List.filter_append]
      have hbr : ((branchLoop step np pp game w i 1 depth s' infos'
          (process_facts np seen infos' cmd) rng).1).filter (fun r => r.step.2 == 0) = [] := by
        rw [List.filter_eq_nil_iff]
        intro r hr
        have h1 := branchLoop_snd_ge step np pp game w i depth 1 s' infos'
          (process_facts np seen infos' cmd) rng r hr
        simp only [beq_iff_eq]
        omega
      rw [hbr, ih _ _ _ _ _ _ rng']
      simp [mkRecord, branchLoop]

theorem mem_serializedView {s : Finset Fact} {x : String} :
    x ∈ serializedView s ↔ ∃ f ∈ s, serialize f = x := by
  simp [serializedView, mem_msort, Multiset.mem_map]

theorem record_prev_subset (i j : Nat) (obs cmd : String) (seen x : Finset Fact) :
    ∀ y ∈ (mkRecord pp game i j obs cmd seen (seen ∪ x)).previous_graph_seen,
      y ∈ (mkRecord pp game i j obs cmd seen (seen ∪ x)).graph_seen := by
  intro y hy
  rcases mem_serializedView.mp hy with ⟨f, hf, rfl⟩
  exact mem_serializedView.mpr ⟨f, Finset.mem_union_left _ hf, rfl⟩

theorem branchLoop_record_shape (i : Nat) :
    ∀ (fuel j : Nat) (s : S) (infos : Infos) (seen : Finset Fact) (rng : Nat),
      ∀ r ∈ (branchLoop step np pp game w i j fuel s infos seen rng).1,
        ∃ j' obs cmd seen' x, r = mkRecord pp game i j' obs cmd seen' (seen' ∪ x) := by
  intro fuel
  induction fuel with
  | zero =>
    intro j s infos seen rng r hr
    simp [branchLoop] at hr
  | succ n ih =>
    intro j s infos seen rng r hr
    simp only [branchLoop] at hr
    split at hr
    · simp at hr
    · split at hr
      · simp at hr
      · rcases List.mem_cons.mp hr with hr | hr
        · exact ⟨j, _, _, seen, _, hr⟩
        · exact ih (j + 1) _ _ _ _ r hr

theorem walkLoop_record_shape (depth : Nat) :
    ∀ (rest : List String) (i : Nat) (s : S) (infos : Infos) (obs : String)
      (seen : Finset Fact) (rng : Nat),
      ∀ r ∈ walkLoop step np pp game w depth rest i s infos obs seen rng,
        ∃ i' j' obs' cmd seen' x, r = mkRecord pp game i' j' obs' cmd seen' (seen' ∪ x) := by
  intro rest
  induction rest with
  | nil =>
    intro i s infos obs seen rng r hr
    simp [walkLoop] at hr
  | cons cmd rest ih =>
    intro i s infos obs seen rng r hr
    simp only [walkLoop] at hr
    generalize (if i = 0 then (obs, false, infos, s) else step s cmd) = st at hr
    obtain ⟨obs', done, infos', s'⟩ := st
    cases done with
    | true =>
      simp only [List.mem_singleton, if_pos] at hr
      exact ⟨i, 0, obs', cmd, seen, np infos' cmd, hr⟩
    | false =>
      simp only [Bool.false_eq_true, if_false, List.mem_cons, List.mem_append] at hr
      rcases hr with hr | hr | hr
      · exact ⟨i, 0, obs', cmd, seen, np infos' cmd, hr⟩
      · obtain ⟨j', o', c', sn', x', hrr⟩ :=
          branchLoop_record_shape step np pp game w i depth 1 _ _ _ _ r hr
        exact ⟨i, j', o', c', sn', x', hrr⟩
      · exact ih (i + 1) _ _ _ _ _ r hr

theorem branchLoop_head_prev (i : Nat) (fuel j : Nat) (s : S) (infos : Infos)
    (seen : Finset Fact) (rng : Nat) :
    ∀ r ∈ ((branchLoop step np pp game w i j fuel s infos seen rng).1).head?,
      r.previous_graph_seen = serializedView seen := by
  intro r hr
  cases fuel with
  | zero => simp [branchLoop] at hr
  | succ n =>
    simp only [branchLoop] at hr
    split at hr
    · simp at hr
    · split at hr
      · simp at hr
      · simp only [List.head?_cons, Option.mem_def, Option.some.injEq] at hr
        subst hr
        rfl

theorem branchLoop_chain (i : Nat) :
    ∀ (fuel j : Nat) (s : S) (infos : Infos) (seen : Finset Fact) (rng : Nat),
      List.Chain' (fun a b => b.previous_graph_seen = a.graph_seen)
        (branchLoop step np pp game w i j fuel s infos seen rng).1 := by
  intro fuel
  induction fuel with
  | zero =>
    intro j s infos seen rng
    simp [branchLoop]
  | succ n ih =>
    intro j s infos seen rng
    simp only [branchLoop]
    split
    · simp
    · split
      · simp
      · rw [List.chain'_cons']
        refine ⟨?_, ih (j + 1) _ _ _ _⟩
        intro b hb
        have hh := branchLoop_head_prev step np pp game w i n (j + 1) _ _ _ _ b hb
        rw [hh]
        rfl

theorem walkLoop_zero_head_prev :
    ∀ (rest : List String) (i : Nat) (s : S) (infos : Infos) (obs : String)
      (seen : Finset Fact) (rng : Nat),
      ∀ r ∈ (walkLoop step np pp game w 0 rest i s infos obs seen rng).head?,
        r.previous_graph_seen = serializedView seen := by
  intro rest i s infos obs seen rng r hr
  cases rest with
  | nil => simp [walkLoop] at hr
  | cons cmd rest =>
    simp only [walkLoop] at hr
    generalize (if i = 0 then (obs, false, infos, s) else step s cmd) = st at hr
    obtain ⟨obs', done, infos', s'⟩ := st
    cases done with
    | true =>
      simp only [if_pos, List.head?_cons, Option.mem_def, Option.some.injEq] at hr
      subst hr
      rfl
    | false =>
      simp only [Bool.false_eq_true, if_false, List.head?_cons, Option.mem_def,
        Option.some.injEq] at hr
      subst hr
      rfl

theorem walkLoop_zero_chain :
    ∀ (rest : List String) (i : Nat) (s : S) (infos : Infos) (obs : String)
      (seen : Finset Fact) (rng : Nat),
      List.Chain' (fun a b => b.previous_graph_seen = a.graph_seen)
        (walkLoop step np pp game w 0 rest i s infos obs seen rng) := by
  intro rest
  induction rest with
  | nil =>
    intro i s infos obs seen rng
    simp [walkLoop]
  | cons cmd rest ih =>
    intro i s infos obs seen rng
    simp only [walkLoop]
    generalize (if i = 0 then (obs, false, infos, s) else step s cmd) = st
    obtain ⟨obs', done, infos', s'⟩ := st
    cases done with
    | true => simp
    | false =>
      simp only [Bool.false_eq_true, if_false, branchLoop, List.nil_append]
      rw [List.chain'_cons']
      refine ⟨?_, ih (i + 1) _ _ _ _ _⟩
      intro b hb
      have hh := walkLoop_zero_head_prev step np pp game w rest (i + 1) _ _ _ _ _ b hb
      rw [hh]
      rfl

end LoopLemmas

/-! ### C3: monotone seen accumulator -/

/-- C3.  The seen accumulator only grows.  Every record's previous serialized
seen view is contained in its current serialized seen view; along the
walkthrough branch (the records with branch index 0) each record's previous
view is exactly the predecessor's current view, and the same chaining holds
inside every exploratory branch — so the seen set after step `n+1` is a
superset of the seen set after step `n`, for every step of every branch. -/
theorem seen_monotone {S : Type} (step : S → String → String × Bool × Infos × S)
    (np : Infos → String → Finset Fact) (pp : String → String)
    (game : String) (w : List String) (depth : Nat) (rest : List String) (i : Nat)
    (s : S) (infos : Infos) (obs : String) (seen : Finset Fact) (rng : Nat) :
    (∀ r ∈ walkLoop step np pp game w depth rest i s infos obs seen rng,
        ∀ y ∈ r.previous_graph_seen, y ∈ r.graph_seen)
    ∧ List.Chain' (fun a b => b.previous_graph_seen = a.graph_seen)
        ((walkLoop step np pp game w depth rest i s infos obs seen rng).filter
          (fun r => r.step.2 == 0))
    ∧ (∀ (j fuel : Nat) (s' : S) (infos' : Infos) (seen' : Finset Fact) (rng' : Nat),
        List.Chain' (fun a b => b.previous_graph_seen = a.graph_seen)
          (branchLoop step np pp game w i j fuel s' infos' seen' rng').1) := by
  refine ⟨?_, ?_, ?_⟩
  · intro r hr
    rcases walkLoop_record_shape step np pp game w depth rest i s infos obs seen rng r hr
      with ⟨i', j', obs', cmd, seen', x, rfl⟩
    exact record_prev_subset pp game i' j' obs' cmd seen' x
  · rw [walkLoop_filter_zero step np pp game w depth rest i s infos obs seen rng rng]
    exact walkLoop_zero_chain step np pp game w rest i s infos obs seen rng
  · intro j fuel s' infos' seen' rng'
    exact branchLoop_chain step np pp game w i fuel j s' infos' seen' rng'

/-! ### C4: branch isolation -/

/-- C4.  Copy-on-fork isolation.  First conjunct: the walkthrough records (the
records with branch index 0) of a run with any branching depth are exactly the
records of the run with branching depth 0 — exploration neither alters the
walkthrough's accumulator nor which walkthrough records are produced, and after
each branch loop the walkthrough continues from a seen set unaffected by the
exploration.  Second conjunct (the sibling branches of
`collect_playthroughs.py` lines 62-72): branch `k`'s accumulator is a function
of the fork-point state, the fork-point accumulator and branch `k`'s own
command alone, so no sibling's update can change it. -/
theorem branch_isolation {S : Type} (step : S → String → String × Bool × Infos × S)
    (np : Infos → String → Finset Fact) (pp : String → String)
    (game : String) (w : List String) (depth : Nat) (rest : List String) (i : Nat)
    (s : S) (infos : Infos) (obs : String) (seen : Finset Fact) (rng : Nat) :
    (walkLoop step np pp game w depth rest i s infos obs seen rng).filter
        (fun r => r.step.2 == 0)
      = walkLoop step np pp game w 0 rest i s infos obs seen rng
    ∧ ∀ (s' : S) (seen' : Finset Fact) (cmds : List String) (k : Nat),
        (ptBranchSeens step np s' seen' cmds).get? k
          = (cmds.get? k).map (fun c => process_facts np seen' (step s' c).2.2.1 c) := by
  refine ⟨walkLoop_filter_zero step np pp game w depth rest i s infos obs seen rng rng, ?_⟩
  intro s' seen' cmds k
  simp [ptBranchSeens]

/-! ### Unfolding helpers for `collect_data_from_game` -/

theorem collect_data_from_game_eq {S : Type} (env : EnvModel S)
    (np : Infos → String → Finset Fact) (pp : String → String)
    (gamefile : String) (seed depth : Nat) (h : env.walkthrough ≠ []) :
    collect_data_from_game env np pp gamefile seed depth
      = some (gamefile, walkLoop env.step np pp gamefile
          (normalizeWalkthrough env.walkthrough) depth (normalizeWalkthrough env.walkthrough)
          0 env.resetState env.resetInfos env.resetObs ∅ seed) := by
  obtain ⟨c0, w', hw⟩ := List.exists_cons_of_ne_nil h
  simp only [collect_data_from_game, hw]

theorem normalizeWalkthrough_cons (c0 : String) (w' : List String) :
    ∃ t, normalizeWalkthrough (c0 :: w') = "restart" :: "inventory" :: t := by
  by_cases hc : c0 = "inventory"
  · subst hc
    exact ⟨w', by simp [normalizeWalkthrough]⟩
  · exact ⟨c0 :: w', by simp [normalizeWalkthrough, hc]⟩

theorem walkLoop_restart_head {S : Type} (step : S → String → String × Bool × Infos × S)
    (np : Infos → String → Finset Fact) (pp : String → String)
    (game : String) (w : List String) (depth : Nat) (rest : List String)
    (s : S) (infos : Infos) (obs : String) (rng : Nat) :
    walkLoop step np pp game w depth ("restart" :: rest) 0 s infos obs ∅ rng
      = mkRecord pp game 0 0 obs "restart" ∅ (process_facts np ∅ infos "restart")
        :: ((branchLoop step np pp game w 0 1 depth s infos
              (process_facts np ∅ infos "restart") rng).1
            ++ walkLoop step np pp game w depth rest 1 s infos obs
                (process_facts np ∅ infos "restart")
                (branchLoop step np pp game w 0 1 depth s infos
                  (process_facts np ∅ infos "restart") rng).2) := by
  simp [walkLoop]

/-! ### C6: the restart sentinel seeds an empty accumulator -/

/-- C6.  Every playthrough starts with the synthetic `restart` pseudo-action at
step `(0, 0)`: the environment is not stepped there (the record is built from
the reset data), the previous seen view is the empty set (so
`previous_graph_seen` is the empty list), the current view is just what the
`restart` step reveals, and consequently the first record's `target_commands`
are all `add` commands — no `delete` command occurs. -/
theorem restart_seeds_empty {S : Type} (env : EnvModel S)
    (np : Infos → String → Finset Fact) (pp : String → String)
    (gamefile : String) (seed depth : Nat) (h : env.walkthrough ≠ []) :
    ∃ r0 rest,
      collect_data_from_game env np pp gamefile seed depth = some (gamefile, r0 :: rest)
      ∧ r0.step = (0, 0)
      ∧ r0.previous_action = "restart"
      ∧ r0.previous_graph_seen = []
      ∧ r0.graph_seen = serializedView (np env.resetInfos "restart")
      ∧ ∀ c ∈ r0.target_commands,
          ∃ f ∈ np env.resetInfos "restart", c = "add " ++ serialize f := by
  obtain ⟨c0, w', hw⟩ := List.exists_cons_of_ne_nil h
  obtain ⟨t, ht⟩ := normalizeWalkthrough_cons c0 w'
  have heq : collect_data_from_game env np pp gamefile seed depth
      = some (gamefile, mkRecord pp gamefile 0 0 env.resetObs "restart" ∅
          (process_facts np ∅ env.resetInfos "restart")
        :: ((branchLoop env.step np pp gamefile (normalizeWalkthrough env.walkthrough) 0 1 depth
              env.resetState env.resetInfos
              (process_facts np ∅ env.resetInfos "restart") seed).1
            ++ walkLoop env.step np pp gamefile (normalizeWalkthrough env.walkthrough) depth
                ("inventory" :: t) 1 env.resetState env.resetInfos env.resetObs
                (process_facts np ∅ env.resetInfos "restart")
                (branchLoop env.step np pp gamefile (normalizeWalkthrough env.walkthrough) 0 1
                  depth env.resetState env.resetInfos
                  (process_facts np ∅ env.resetInfos "restart") seed).2)) := by
    rw [collect_data_from_game_eq env np pp gamefile seed depth h]
    rw [show normalizeWalkthrough env.walkthrough
        = "restart" :: "inventory" :: t from hw ▸ ht]
    rw [walkLoop_restart_head]
  refine ⟨_, _, heq, rfl, by show lower "restart" = "restart"; decide, rfl, ?_, ?_⟩
  · show serializedView (∅ ∪ np env.resetInfos "restart")
      = serializedView (np env.resetInfos "restart")
    rw [Finset.empty_union]
  · intro c hc
    have hc' : c ∈ targetCommands ∅ (process_facts np ∅ env.resetInfos "restart") := hc
    rw [targetCommands_eq] at hc'
    rcases List.mem_append.mp hc' with hc'' | hc''
    · rcases List.mem_map.mp hc'' with ⟨x, hx, rfl⟩
      rw [Finset.sdiff_empty] at hx
      rcases mem_serializedView.mp hx with ⟨f, hf, rfl⟩
      rw [process_facts, Finset.empty_union] at hf
      exact ⟨f, hf, rfl⟩
    · rw [Finset.empty_sdiff] at hc''
      simp [serializedView, msort_zero] at hc''

/-- Witness for `restart_seeds_empty` at the concrete toy environment. -/
theorem restart_seeds_empty_witness :
    ∃ r0 rest,
      collect_data_from_game toyEnv toyNp id "g" 7 2 = some ("g", r0 :: rest)
      ∧ r0.step = (0, 0)
      ∧ r0.previous_action = "restart"
      ∧ r0.previous_graph_seen = []
      ∧ r0.graph_seen = serializedView (toyNp toyEnv.resetInfos "restart")
      ∧ ∀ c ∈ r0.target_commands,
          ∃ f ∈ toyNp toyEnv.resetInfos "restart", c = "add " ++ serialize f :=
  restart_seeds_empty toyEnv toyNp id "g" 7 2 (by decide)

/-! ### C10: walkthrough normalization -/

/-- C10.  The processed command sequence always begins with `restart` followed
by `inventory` (`inventory` is prepended whenever it is not already the first
walkthrough command, `restart` is then prepended unconditionally), and the
walkthrough-branch records at steps `(0,0)` and `(1,0)` have `previous_action`
`"restart"` and `"inventory"` respectively. -/
theorem walkthrough_normalization {S : Type} (env : EnvModel S)
    (np : Infos → String → Finset Fact) (pp : String → String)
    (gamefile : String) (seed depth : Nat) (h : env.walkthrough ≠ []) :
    (∃ t, normalizeWalkthrough env.walkthrough = "restart" :: "inventory" :: t)
    ∧ ∃ recs r0 r1,
        collect_data_from_game env np pp gamefile seed depth = some (gamefile, recs)
        ∧ (recs.filter (fun r => r.step.2 == 0)).get? 0 = some r0
        ∧ (recs.filter (fun r => r.step.2 == 0)).get? 1 = some r1
        ∧ r0.step = (0, 0) ∧ r0.previous_action = "restart"
        ∧ r1.step = (1, 0) ∧ r1.previous_action = "inventory" := by
  obtain ⟨c0, w', hw⟩ := List.exists_cons_of_ne_nil h
  obtain ⟨t, ht⟩ := normalizeWalkthrough_cons c0 w'
  have hnorm : normalizeWalkthrough env.walkthrough = "restart" :: "inventory" :: t :=
    hw ▸ ht
  refine ⟨⟨t, hnorm⟩, ?_⟩
  have heq := collect_data_from_game_eq env np pp gamefile seed depth h
  rw [hnorm] at heq
  refine ⟨_, mkRecord pp gamefile 0 0 env.resetObs "restart" ∅
      (process_facts np ∅ env.resetInfos "restart"),
    mkRecord pp gamefile 1 0 (env.step env.resetState "inventory").1 "inventory"
      (process_facts np ∅ env.resetInfos "restart")
      (process_facts np (process_facts np ∅ env.resetInfos "restart")
        (env.step env.resetState "inventory").2.2.1 "inventory"),
    heq, ?_, ?_, rfl, by show lower "restart" = "restart"; decide, rfl,
    by show lower "inventory" = "inventory"; decide⟩
  · rw [walkLoop_filter_zero env.step np pp gamefile ("restart" :: "inventory" :: t) depth
      ("restart" :: "inventory" :: t) 0 env.resetState env.resetInfos env.resetObs ∅ seed seed]
    rw [walkLoop_restart_head]
    simp [branchLoop, mkRecord]
  · rw [walkLoop_filter_zero env.step np pp gamefile ("restart" :: "inventory" :: t) depth
      ("restart" :: "inventory" :: t) 0 env.resetState env.resetInfos env.resetObs ∅ seed seed]
    rw [walkLoop_restart_head]
    rw [show (branchLoop env.step np pp gamefile ("restart" :: "inventory" :: t) 0 1 0
        env.resetState env.resetInfos (process_facts np ∅ env.resetInfos "restart") seed)
      = ([], seed) from rfl]
    simp only [List.nil_append]
    simp only [List.get?_cons_succ]
    simp only [walkLoop]
    rw [if_neg (by decide : ¬(1 = 0))]
    generalize env.step env.resetState "inventory" = st1
    obtain ⟨obs', done, infos', s'⟩ := st1
    cases done with
    | true =>
      simp [mkRecord]
    | false =>
      simp only [Bool.false_eq_true, if_false]
      rfl

/-- Witness for `walkthrough_normalization` at the concrete toy environment. -/
theorem walkthrough_normalization_witness :
    (∃ t, normalizeWalkthrough toyEnv.walkthrough = "restart" :: "inventory" :: t)
    ∧ ∃ recs r0 r1,
        collect_data_from_game toyEnv toyNp id "g" 3 1 = some ("g", recs)
        ∧ (recs.filter (fun r => r.step.2 == 0)).get? 0 = some r0
        ∧ (recs.filter (fun r => r.step.2 == 0)).get? 1 = some r1
        ∧ r0.step = (0, 0) ∧ r0.previous_action = "restart"
        ∧ r1.step = (1, 0) ∧ r1.previous_action = "inventory" :=
  walkthrough_normalization toyEnv toyNp id "g" 3 1 (by decide)

/-! ### C7: done is terminal -/

/-- C7.  Done is terminal.  First conjunct: on a walkthrough step (`i ≠ 0`)
whose environment step reports completion, the branch emits that step's record
and nothing else — whatever walkthrough commands remain are never processed.
Second conjunct: an exploration branch with zero eligible commands terminates
immediately with no record.  Third conjunct: an exploration branch whose step
reports completion terminates with no further record. -/
theorem done_is_terminal {S : Type} (step : S → String → String × Bool × Infos × S)
    (np : Infos → String → Finset Fact) (pp : String → String)
    (game : String) (w : List String) (depth : Nat) :
    (∀ (cmd : String) (rest : List String) (i : Nat) (s : S) (infos : Infos)
        (obs : String) (seen : Finset Fact) (rng : Nat),
        i ≠ 0 → (step s cmd).2.1 = true →
        walkLoop step np pp game w depth (cmd :: rest) i s infos obs seen rng
          = [mkRecord pp game i 0 (step s cmd).1 cmd seen
              (process_facts np seen (step s cmd).2.2.1 cmd)])
    ∧ (∀ (i j fuel : Nat) (s : S) (infos : Infos) (seen : Finset Fact) (rng : Nat),
        eligibleCommands w i infos.admissible = [] →
        branchLoop step np pp game w i j (fuel + 1) s infos seen rng = ([], rng))
    ∧ (∀ (i j fuel : Nat) (s : S) (infos : Infos) (seen : Finset Fact) (rng : Nat),
        eligibleCommands w i infos.admissible ≠ [] →
        (step s (rngChoice rng (eligibleCommands w i infos.admissible)).1).2.1 = true →
        branchLoop step np pp game w i j (fuel + 1) s infos seen rng
          = ([], (rngChoice rng (eligibleCommands w i infos.admissible)).2)) := by
  refine ⟨?_, ?_, ?_⟩
  · intro cmd rest i s infos obs seen rng hi hdone
    simp [walkLoop, hi, hdone]
  · intro i j fuel s infos seen rng hel
    simp [branchLoop, hel]
  · intro i j fuel s infos seen rng hel hdone
    simp [branchLoop, hel, hdone]

/-- Witness for `done_is_terminal`: the walkthrough branch of the concrete
always-done environment stops right after the first stepped command. -/
theorem done_is_terminal_witness :
    (1 ≠ 0) ∧ (toyDoneEnv.step 0 "go north").2.1 = true
    ∧ walkLoop toyDoneEnv.step toyNp id "g" ["restart", "go north"] 3
        ["go north"] 1 0 toyInfos "o" ∅ 0
      = [mkRecord id "g" 1 0 (toyDoneEnv.step 0 "go north").1 "go north" ∅
          (process_facts toyNp ∅ (toyDoneEnv.step 0 "go north").2.2.1 "go north")] :=
  ⟨by decide, by decide,
    (done_is_terminal toyDoneEnv.step toyNp id "g" ["restart", "go north"] 3).1
      "go north" [] 1 0 toyInfos "o" ∅ 0 (by decide) (by decide)⟩

/-! ### C8: one game's failure aborts the batch (claim corrected) -/

/-- C8 counterexample: in the sequential batch loop of `collect_data`, game
`"a"` raises while game `"b"` would succeed, yet the batch result contains no
game data at all — the remaining game is not processed, refuting the claim that
a single game's failure does not abort processing of the other games. -/
theorem batch_abort_counterexample :
    failingRun "b" 1 = .ok []
      ∧ collect_data_seq failingRun ["a", "b"] 0 = ([], some "boom") :=
  ⟨rfl, rfl⟩

/-- C8 amended: a game's failure is reported — the raised error propagates into
the batch result — but it is not isolated: the sequential loop stops at the
first failing game, so exactly the games before it are processed and the games
after it never run. -/
theorem batch_failure_propagates (run : String → Nat → Except String (List Record)) :
    ∀ (pre : List String) (g : String) (post : List String) (seed : Nat) (e : String),
      (∀ k, ∀ hk : k < pre.length, ∃ d, run (pre.get ⟨k, hk⟩) (seed + k) = .ok d) →
      run g (seed + pre.length) = .error e →
      (collect_data_seq run (pre ++ g :: post) seed).2 = some e
        ∧ (collect_data_seq run (pre ++ g :: post) seed).1.length = pre.length := by
  intro pre
  induction pre with
  | nil =>
    intro g post seed e hok hfail
    simp only [List.length_nil, Nat.add_zero] at hfail
    simp only [List.nil_append, collect_data_seq, hfail]
    exact ⟨by simp, by simp⟩
  | cons p pre ih =>
    intro g post seed e hok hfail
    obtain ⟨d, hd0⟩ := hok 0 (by simp)
    have hd : run p seed = .ok d := by simpa using hd0
    have hok' : ∀ k, ∀ hk : k < pre.length,
        ∃ d, run (pre.get ⟨k, hk⟩) ((seed + 1) + k) = .ok d := by
      intro k hk
      have h2 := hok (k + 1) (by simpa using Nat.succ_lt_succ hk)
      have harith : seed + (k + 1) = (seed + 1) + k := by omega
      rw [harith] at h2
      exact h2
    have hfail' : run g ((seed + 1) + pre.length) = .error e := by
      have harith : seed + (p :: pre).length = (seed + 1) + pre.length := by
        simp only [List.length_cons]
        omega
      rw [harith] at hfail
      exact hfail
    have hrec := ih g post (seed + 1) e hok' hfail'
    simp only [List.cons_append, collect_data_seq, hd]
    refine ⟨hrec.1, ?_⟩
    simp only [List.length_cons]
    exact congrArg (fun n => n + 1) hrec.2

/-- Witness for `batch_failure_propagates`: batch `["b", "a", "b"]` where only
`"a"` fails — one game is processed, the error is reported, the last game never
runs. -/
theorem batch_failure_propagates_witness :
    (collect_data_seq failingRun (["b"] ++ "a" :: ["b"]) 0).2 = some "boom"
      ∧ (collect_data_seq failingRun (["b"] ++ "a" :: ["b"]) 0).1.length
        = (["b"] : List String).length :=
  batch_failure_propagates failingRun ["b"] "a" ["b"] 0 "boom"
    (fun k hk => ⟨[], by
      have hk0 : k = 0 := Nat.lt_one_iff.mp (by simpa using hk)
      subst hk0
      rfl⟩)
    (by rfl)

/-! ### C9: deterministic per-game seeding -/

theorem runGame_ok {S : Type} (envOf : String → EnvModel S)
    (np : Infos → String → Finset Fact) (pp : String → String) (depth : Nat)
    (g : String) (seed : Nat) (h : (envOf g).walkthrough ≠ []) :
    runGame envOf np pp depth g seed = .ok (gameRecords envOf np pp depth g seed) := by
  rw [runGame, gameRecords, collect_data_from_game_eq (envOf g) np pp g seed depth h]
  rfl

/-- C9.  Determinism of the batch: the sequential `collect_data` loop seeds
game `k`'s generator with `args.seed + k` (lines 184-186), and the whole batch
output is exactly the list of per-game record lists, each a pure function of
the game and its derived seed alone — independent of the other games in the
batch, of call order, and of prior invocations.  Repeated runs on identical
inputs therefore produce identical output. -/
theorem collect_data_deterministic_seeding {S : Type} (envOf : String → EnvModel S)
    (np : Infos → String → Finset Fact) (pp : String → String) (depth : Nat)
    (hne : ∀ g, (envOf g).walkthrough ≠ []) :
    ∀ (games : List String) (seed : Nat),
      collect_data_seq (runGame envOf np pp depth) games seed
        = (games.mapIdx (fun k g => gameRecords envOf np pp depth g (seed + k)), none) := by
  intro games
  induction games with
  | nil =>
    intro seed
    simp [collect_data_seq]
  | cons g gs ih =>
    intro seed
    simp only [collect_data_seq, runGame_ok envOf np pp depth g seed (hne g)]
    rw [ih (seed + 1)]
    have hmap : (g :: gs).mapIdx (fun k a => gameRecords envOf np pp depth a (seed + k))
        = gameRecords envOf np pp depth g seed
          :: gs.mapIdx (fun k a => gameRecords envOf np pp depth a ((seed + 1) + k)) := by
      rw [List.mapIdx_cons, Nat.add_zero]
      refine congrArg (fun l => _ :: l) ?_
      refine congrArg (fun f => List.mapIdx f gs) ?_
      funext k a
      have harith : seed + (k + 1) = seed + 1 + k := by omega
      rw [harith]
    rw [hmap]

/-- Witness for `collect_data_deterministic_seeding` on a concrete two-game
batch over the toy environment. -/
theorem collect_data_deterministic_seeding_witness :
    collect_data_seq (runGame (fun _ => toyEnv) toyNp id 0) ["g1", "g2"] 3
      = (["g1", "g2"].mapIdx
          (fun k g => gameRecords (fun _ => toyEnv) toyNp id 0 g (3 + k)), none) :=
  collect_data_deterministic_seeding (fun _ => toyEnv) toyNp id 0
    (fun g => by show toyEnv.walkthrough ≠ []; decide) ["g1", "g2"] 3

end GATA
